import Mathlib

/-!
Verification of the diff/patch core of the gitsage repository.

The definitions below are shallow embeddings of the Rust sources:
* `src-tauri/src/git/diff.rs`   — the diff data model;
* `src-tauri/src/git/patch.rs`  — `generate_hunk_patch` / `generate_line_patch`;
* `src-tauri/src/git/libgit.rs` — `parse_diff` (per-hunk part) and the per-hunk
  loop of `line_changes`;
* `src-tauri/src/commands/workspace.rs` — the validation in `stage_hunk`,
  `unstage_hunk`, `discard_hunk` and `stage_lines`.

Rust `String` becomes Lean `String`, `Vec` becomes `List`, `u32` counters
become `Nat` (no count in scope can approach `2^32`), `Option<u32>` becomes
`Option Nat`, and fallible commands return `Except AppError`.
-/

namespace GitSage

set_option maxHeartbeats 1000000

/-- Newline constant, used where the source writes `'\n'`. -/
def nl : String := "\n"

/-! ## Data model (src-tauri/src/git/diff.rs) -/

/-- Enum `DiffLineType` from diff.rs. -/
inductive DiffLineType where
  | Context
  | Addition
  | Deletion
  | Header
deriving DecidableEq, Repr

/-- Structure `DiffLine` from diff.rs. -/
structure DiffLine where
  origin : DiffLineType
  content : String
  old_lineno : Option Nat
  new_lineno : Option Nat
deriving DecidableEq, Repr

/-- Structure `DiffHunk` from diff.rs. -/
structure DiffHunk where
  old_start : Nat
  old_lines : Nat
  new_start : Nat
  new_lines : Nat
  header : String
  lines : List DiffLine
deriving DecidableEq, Repr

/-- Structure `DiffFile` from diff.rs (the `is_binary` flag is irrelevant here). -/
structure DiffFile where
  old_path : Option String
  new_path : Option String
  hunks : List DiffHunk
  is_binary : Bool
deriving DecidableEq, Repr

/-! ## Patch synthesis (src-tauri/src/git/patch.rs) -/

/-- Check `content.ends_with` newline from the source, expressed on the character
list of the string. -/
def endsWithNl (s : String) : Bool :=
  s.data.getLast? == some '\n'

/-- First file-header line `--- a/<path>`. -/
def lineA (file_path : String) : String :=
  "--- a/" ++ file_path ++ nl

/-- Second file-header line `+++ b/<path>`. -/
def lineB (file_path : String) : String :=
  "+++ b/" ++ file_path ++ nl

/-- The two file-header lines (both branches of the source's `if reverse`
push the same two lines). -/
def fileHeader (file_path : String) : String :=
  lineA file_path ++ lineB file_path

/-- The hunk-header text `@@ -a,b +c,d @@` without the trailing newline;
numbers are printed in decimal as by the source's `format!`. -/
def atHeaderBody (a b c d : Nat) : String :=
  "@@ -" ++ Nat.repr a ++ "," ++ Nat.repr b ++ " +" ++ Nat.repr c ++ "," ++
    Nat.repr d ++ " @@"

/-- The hunk-header line `@@ -a,b +c,d @@` with trailing newline. -/
def atHeader (a b c d : Nat) : String :=
  atHeaderBody a b c d ++ nl

/-- The string pushed by the `match (&line.origin, reverse)` in
`generate_hunk_patch` (nothing for `Header`). -/
def hunkLineBody (reverse : Bool) (l : DiffLine) : String :=
  match l.origin, reverse with
  | .Context, _ => " " ++ l.content
  | .Addition, false => "+" ++ l.content
  | .Deletion, true => "+" ++ l.content
  | .Deletion, false => "-" ++ l.content
  | .Addition, true => "-" ++ l.content
  | .Header, _ => ""

/-- The newline pushed after each line of `generate_hunk_patch` when
`!line.content.ends_with('\n')` (pushed even for `Header` lines). -/
def contentNl (content : String) : String :=
  if endsWithNl content then "" else nl

/-- Everything `generate_hunk_patch` appends for one `DiffLine`. -/
def hunkLineOut (reverse : Bool) (l : DiffLine) : String :=
  hunkLineBody reverse l ++ contentNl l.content

/-- Function `generate_hunk_patch` from patch.rs. -/
def generate_hunk_patch (file_path : String) (hunk : DiffHunk) (reverse : Bool) :
    String :=
  let hdr :=
    if reverse then
      atHeader hunk.new_start hunk.new_lines hunk.old_start hunk.old_lines
    else
      atHeader hunk.old_start hunk.old_lines hunk.new_start hunk.new_lines
  hunk.lines.foldl (fun acc l => acc ++ hunkLineOut reverse l)
    (fileHeader file_path ++ hdr)

/-- One iteration of the `for (idx, line) in hunk.lines.iter().enumerate()`
loop of `generate_line_patch`: state is `(old_count, new_count, lines_output)`. -/
def linePatchStep (selected_lines : List Nat) (reverse : Bool)
    (st : Nat × Nat × List String) (p : Nat × DiffLine) :
    Nat × Nat × List String :=
  let (old_count, new_count, lines_output) := st
  let (idx, line) := p
  match line.origin, reverse, selected_lines.contains idx with
  | .Context, _, _ =>
      (old_count + 1, new_count + 1, lines_output ++ [" " ++ line.content])
  | .Addition, false, true =>
      (old_count, new_count + 1, lines_output ++ ["+" ++ line.content])
  | .Deletion, true, true =>
      (old_count, new_count + 1, lines_output ++ ["+" ++ line.content])
  | .Addition, false, false =>
      (old_count + 1, new_count + 1, lines_output ++ [" " ++ line.content])
  | .Deletion, true, false =>
      (old_count + 1, new_count + 1, lines_output ++ [" " ++ line.content])
  | .Deletion, false, true =>
      (old_count + 1, new_count, lines_output ++ ["-" ++ line.content])
  | .Addition, true, true =>
      (old_count + 1, new_count, lines_output ++ ["-" ++ line.content])
  | .Deletion, false, false =>
      (old_count + 1, new_count + 1, lines_output ++ [" " ++ line.content])
  | .Addition, true, false =>
      (old_count + 1, new_count + 1, lines_output ++ [" " ++ line.content])
  | .Header, _, _ => (old_count, new_count, lines_output)

/-- The whole counting loop of `generate_line_patch`. -/
def linePatchFold (selected_lines : List Nat) (reverse : Bool)
    (lines : List DiffLine) : Nat × Nat × List String :=
  lines.enum.foldl (linePatchStep selected_lines reverse) (0, 0, [])

/-- The pair of counts printed in the hunk header of `generate_line_patch`,
in print order (the count after `-`, then the count after `+`). -/
def lineHeaderCounts (hunk : DiffHunk) (selected_lines : List Nat)
    (reverse : Bool) : Nat × Nat :=
  let (old_count, new_count, _) := linePatchFold selected_lines reverse hunk.lines
  if reverse then (new_count, old_count) else (old_count, new_count)

/-- The `lines_output` vector of `generate_line_patch`. -/
def linePatchOuts (hunk : DiffHunk) (selected_lines : List Nat)
    (reverse : Bool) : List String :=
  (linePatchFold selected_lines reverse hunk.lines).2.2

/-- The conditional newline push performed on each output line of
`generate_line_patch`. -/
def ensureNl (s : String) : String :=
  if endsWithNl s then s else s ++ nl

/-- Function `generate_line_patch` from patch.rs. -/
def generate_line_patch (file_path : String) (hunk : DiffHunk)
    (selected_lines : List Nat) (reverse : Bool) : String :=
  match linePatchFold selected_lines reverse hunk.lines with
  | (old_count, new_count, lines_output) =>
    let hdr :=
      if reverse then
        atHeader hunk.new_start new_count hunk.old_start old_count
      else
        atHeader hunk.old_start old_count hunk.new_start new_count
    lines_output.foldl (fun acc s => acc ++ ensureNl s)
      (fileHeader file_path ++ hdr)

/-- The pair of counts printed in the hunk header of `generate_hunk_patch`,
in print order (the count after `-`, then the count after `+`). -/
def hunkHeaderCounts (hunk : DiffHunk) (reverse : Bool) : Nat × Nat :=
  if reverse then (hunk.new_lines, hunk.old_lines) else (hunk.old_lines, hunk.new_lines)

/-! ## Observation helpers for the synthesized text -/

/-- The first character of a string (the prefix of an emitted patch line). -/
def headChar (s : String) : Option Char :=
  s.data.head?

/-- Number of body lines prefixed with a space or `-` (the old-file side). -/
def countOldSide (outs : List String) : Nat :=
  outs.countP (fun s => headChar s == some ' ' || headChar s == some '-')

/-- Number of body lines prefixed with a space or `+` (the new-file side). -/
def countNewSide (outs : List String) : Nat :=
  outs.countP (fun s => headChar s == some ' ' || headChar s == some '+')

/-- Number of body lines prefixed with `+` or `-`. -/
def countPlusMinus (outs : List String) : Nat :=
  outs.countP (fun s => headChar s == some '+' || headChar s == some '-')

/-- No newline occurs in the string. -/
def cleanStr (s : String) : Bool :=
  s.data.all (fun c => !(c == '\n'))

/-- Any newline in the string is its final character (how a single diff line
is represented by the engine). -/
def singleLineContent (s : String) : Bool :=
  s.data.dropLast.all (fun c => !(c == '\n'))

/-- The string is exactly one newline-terminated physical line. -/
def isLine (s : String) : Bool :=
  (s.data.getLast? == some '\n') && s.data.dropLast.all (fun c => !(c == '\n'))

/-- Concatenation of a list of strings. -/
def strConcat : List String → String
  | [] => ""
  | s :: rest => s ++ strConcat rest

/-! ## Pointwise description of the `generate_line_patch` loop -/

/-- Whether one loop iteration of `generate_line_patch` increments
`old_count`. -/
def oldIncr (selected_lines : List Nat) (reverse : Bool) (p : Nat × DiffLine) :
    Bool :=
  match p.2.origin, reverse, selected_lines.contains p.1 with
  | .Header, _, _ => false
  | .Context, _, _ => true
  | .Addition, false, true => false
  | .Addition, false, false => true
  | .Addition, true, true => true
  | .Addition, true, false => true
  | .Deletion, true, true => false
  | .Deletion, true, false => true
  | .Deletion, false, true => true
  | .Deletion, false, false => true

/-- Whether one loop iteration of `generate_line_patch` increments
`new_count`. -/
def newIncr (selected_lines : List Nat) (reverse : Bool) (p : Nat × DiffLine) :
    Bool :=
  match p.2.origin, reverse, selected_lines.contains p.1 with
  | .Header, _, _ => false
  | .Context, _, _ => true
  | .Addition, false, true => true
  | .Addition, false, false => true
  | .Addition, true, true => false
  | .Addition, true, false => true
  | .Deletion, true, true => true
  | .Deletion, true, false => true
  | .Deletion, false, true => false
  | .Deletion, false, false => true

/-- The line `generate_line_patch` pushes onto `lines_output` for one
non-`Header` line. -/
def lineEntry (selected_lines : List Nat) (reverse : Bool) (p : Nat × DiffLine) :
    String :=
  match p.2.origin, reverse, selected_lines.contains p.1 with
  | .Header, _, _ => " " ++ p.2.content
  | .Context, _, _ => " " ++ p.2.content
  | .Addition, false, true => "+" ++ p.2.content
  | .Addition, false, false => " " ++ p.2.content
  | .Addition, true, true => "-" ++ p.2.content
  | .Addition, true, false => " " ++ p.2.content
  | .Deletion, true, true => "+" ++ p.2.content
  | .Deletion, true, false => " " ++ p.2.content
  | .Deletion, false, true => "-" ++ p.2.content
  | .Deletion, false, false => " " ++ p.2.content

/-- Lines that produce an output line (everything but `Header`). -/
def nonHeaderP (p : Nat × DiffLine) : Bool :=
  p.2.origin != .Header

/-- Fixed sample path used by concrete instances below. -/
def fpath : String := "f"

/-- A three-line well-formed hunk (context, addition, deletion). -/
def wHunk : DiffHunk :=
  ⟨1, 2, 1, 2, "",
    [⟨.Context, "a\n", some 1, some 1⟩,
     ⟨.Addition, "b\n", none, some 2⟩,
     ⟨.Deletion, "c\n", some 2, none⟩]⟩

/-- A well-formed hunk consisting of one added line. -/
def cexAddHunk : DiffHunk :=
  ⟨0, 0, 1, 1, "", [⟨.Addition, "x\n", none, some 1⟩]⟩

/-! ## Workspace commands (src-tauri/src/commands/workspace.rs) -/

/-- Modelled from the spec: the application error type (`src-tauri/src/error.rs`
is not under src/); only the `General` constructor, which the workspace
commands in src construct with a message string, is needed (`GitCli` appears
in cli.rs). -/
inductive AppError where
  | General : String → AppError
  | GitCli : String → AppError
deriving DecidableEq, Repr

/-- Message of the missing-diff error in workspace.rs. -/
def msgNoDiff : String := "No diff found for file"

/-- Message of the bad-hunk-index error in workspace.rs. -/
def msgHunkOutOfRange : String := "Hunk index out of range"

/-- Command `stage_hunk` from workspace.rs, with the externally produced diff made an
argument and the patch that would be handed to `apply_patch` as result. -/
def stage_hunk (files : List DiffFile) (path : String) (hunk_index : Nat) :
    Except AppError String :=
  match files.head? with
  | none => .error (.General msgNoDiff)
  | some file =>
    match file.hunks.get? hunk_index with
    | none => .error (.General msgHunkOutOfRange)
    | some hunk => .ok (generate_hunk_patch path hunk false)

/-- Command `unstage_hunk` from workspace.rs (staged diff, reverse patch). -/
def unstage_hunk (files : List DiffFile) (path : String) (hunk_index : Nat) :
    Except AppError String :=
  match files.head? with
  | none => .error (.General msgNoDiff)
  | some file =>
    match file.hunks.get? hunk_index with
    | none => .error (.General msgHunkOutOfRange)
    | some hunk => .ok (generate_hunk_patch path hunk true)

/-- Command `discard_hunk` from workspace.rs (worktree apply, reverse patch). -/
def discard_hunk (files : List DiffFile) (path : String) (hunk_index : Nat) :
    Except AppError String :=
  match files.head? with
  | none => .error (.General msgNoDiff)
  | some file =>
    match file.hunks.get? hunk_index with
    | none => .error (.General msgHunkOutOfRange)
    | some hunk => .ok (generate_hunk_patch path hunk true)

/-- Command `stage_lines` from workspace.rs: note there is no validation of
`line_indices` anywhere on this path. -/
def stage_lines (files : List DiffFile) (path : String) (hunk_index : Nat)
    (line_indices : List Nat) : Except AppError String :=
  match files.head? with
  | none => .error (.General msgNoDiff)
  | some file =>
    match file.hunks.get? hunk_index with
    | none => .error (.General msgHunkOutOfRange)
    | some hunk => .ok (generate_line_patch path hunk line_indices false)

/-- A well-formed hunk consisting of one deleted line. -/
def cexDelHunk : DiffHunk :=
  ⟨1, 1, 1, 0, "", [⟨.Deletion, "x\n", some 1, none⟩]⟩

/-- A well-formed hunk with one context and one added line (no deletions). -/
def w5Hunk : DiffHunk :=
  ⟨1, 1, 1, 2, "",
    [⟨.Context, "a\n", some 1, some 1⟩, ⟨.Addition, "b\n", none, some 2⟩]⟩

/-- A one-file diff whose only hunk is `cexAddHunk`. -/
def cexFiles : List DiffFile :=
  [⟨some fpath, some fpath, [cexAddHunk], false⟩]

/-- A hunk containing one `Header`-origin line with no trailing newline. -/
def cexHdrHunk : DiffHunk :=
  ⟨1, 0, 1, 0, "", [⟨.Header, "", none, none⟩]⟩

/-! ## Diff parsing (parse_diff in libgit.rs) -/

/-- One line of the engine's patch view (git2), as consumed by `parse_diff`:
origin marker character, content, optional old/new line numbers. -/
structure EngineLine where
  origin : Char
  content : String
  old_lineno : Option Nat
  new_lineno : Option Nat
deriving DecidableEq, Repr

/-- One hunk of the engine's patch view (git2), as consumed by `parse_diff`. -/
structure EngineHunk where
  old_start : Nat
  old_lines : Nat
  new_start : Nat
  new_lines : Nat
  header : String
  lines : List EngineLine
deriving DecidableEq, Repr

/-- The `match line.origin()` in `parse_diff`: `'+'` Addition, `'-'`
Deletion, anything else Context. -/
def parseOrigin (c : Char) : DiffLineType :=
  if c = '+' then .Addition else if c = '-' then .Deletion else .Context

/-- Per-line translation done by `parse_diff`. -/
def parseLine (el : EngineLine) : DiffLine :=
  ⟨parseOrigin el.origin, el.content, el.old_lineno, el.new_lineno⟩

/-- Per-hunk translation done by `parse_diff` (numbers and header copied,
lines mapped). -/
def parseHunk (eh : EngineHunk) : DiffHunk :=
  ⟨eh.old_start, eh.old_lines, eh.new_start, eh.new_lines, eh.header,
    eh.lines.map parseLine⟩

/-- The diff-engine contract on hunk counters (the engine's header counts
describe its own line stream): `old_lines` counts the non-`'+'` lines and
`new_lines` counts the non-`'-'` lines. -/
def engineCountsWF (eh : EngineHunk) : Prop :=
  eh.old_lines = eh.lines.countP (fun el => el.origin != '+') ∧
  eh.new_lines = eh.lines.countP (fun el => el.origin != '-')

/-- A sample engine hunk satisfying the contract. -/
def wEngineHunk : EngineHunk :=
  ⟨1, 2, 1, 2, "",
    [⟨' ', "a\n", some 1, some 1⟩,
     ⟨'+', "b\n", none, some 2⟩,
     ⟨'-', "c\n", some 2, none⟩]⟩

/-! ## Line classifier (line_changes in libgit.rs) -/

/-- Enum `ChangeType` from repository.rs. -/
inductive ChangeType where
  | Added
  | Modified
  | Deleted
deriving DecidableEq, Repr

/-- Structure `LineChange` from repository.rs. -/
structure LineChange where
  start_line : Nat
  end_line : Nat
  change_type : ChangeType
deriving DecidableEq, Repr

/-- Test for an addition-origin line on the parsed model. -/
def isAddL (l : DiffLine) : Bool := l.origin == .Addition

/-- Test for a deletion-origin line on the parsed model. -/
def isDelL (l : DiffLine) : Bool := l.origin == .Deletion

/-- The `end = lineno.unwrap_or(end)` accumulation of `line_changes` over a
run of lines. -/
def runEnd (f : DiffLine → Option Nat) (init : Nat)
    (run : List DiffLine) : Nat :=
  run.foldl (fun e x => (f x).getD e) init

/-- The per-hunk `while line_idx < num_lines` loop of
`Repository::line_changes` (libgit.rs): consume a run of additions into one
`Added`, a run of deletions (absorbing a directly following run of additions)
into one `Modified` or `Deleted`, skip anything else. -/
def lineChangesHunk : List DiffLine → List LineChange
  | [] => []
  | l :: rest =>
    match l.origin with
    | .Addition =>
      let start := l.new_lineno.getD 1
      let e := runEnd (fun x => x.new_lineno) start (rest.takeWhile isAddL)
      ⟨start, e, .Added⟩ :: lineChangesHunk (rest.dropWhile isAddL)
    | .Deletion =>
      let start := l.old_lineno.getD 1
      let e := runEnd (fun x => x.old_lineno) start (rest.takeWhile isDelL)
      let rest2 := rest.dropWhile isDelL
      if (rest2.head?.map isAddL).getD false then
        let modEnd := runEnd (fun x => x.new_lineno) e (rest2.takeWhile isAddL)
        ⟨start, modEnd, .Modified⟩ :: lineChangesHunk (rest2.dropWhile isAddL)
      else
        ⟨start, e, .Deleted⟩ :: lineChangesHunk rest2
    | _ => lineChangesHunk rest
  termination_by lines => lines.length
  decreasing_by
  all_goals simp only [List.length_cons]
  · have h1 := (List.dropWhile_sublist isAddL (l := rest)).length_le
    omega
  · have h2 := (List.dropWhile_sublist isDelL (l := rest)).length_le
    have h3 := (List.dropWhile_sublist isAddL
      (l := rest.dropWhile isDelL)).length_le
    omega
  · have h2 := (List.dropWhile_sublist isDelL (l := rest)).length_le
    omega
  · omega

/-- Modelled on the claim's wording of the classifier: maximal runs, with
range ends taken from the last element of each consumed run. -/
def specHunkChanges : List DiffLine → List LineChange
  | [] => []
  | l :: rest =>
    match l.origin with
    | .Addition =>
      let last := (rest.takeWhile isAddL).getLast?.getD l
      ⟨l.new_lineno.getD 0, last.new_lineno.getD 0, .Added⟩ ::
        specHunkChanges (rest.dropWhile isAddL)
    | .Deletion =>
      let lastD := (rest.takeWhile isDelL).getLast?.getD l
      let rest2 := rest.dropWhile isDelL
      match rest2.head? with
      | some a =>
        if isAddL a then
          let lastA := (rest2.takeWhile isAddL).getLast?.getD a
          ⟨l.old_lineno.getD 0, lastA.new_lineno.getD 0, .Modified⟩ ::
            specHunkChanges (rest2.dropWhile isAddL)
        else
          ⟨l.old_lineno.getD 0, lastD.old_lineno.getD 0, .Deleted⟩ ::
            specHunkChanges rest2
      | none =>
        ⟨l.old_lineno.getD 0, lastD.old_lineno.getD 0, .Deleted⟩ ::
          specHunkChanges rest2
    | _ => specHunkChanges rest
  termination_by lines => lines.length
  decreasing_by
  all_goals simp only [List.length_cons]
  · have h1 := (List.dropWhile_sublist isAddL (l := rest)).length_le
    omega
  · have h2 := (List.dropWhile_sublist isDelL (l := rest)).length_le
    have h3 := (List.dropWhile_sublist isAddL
      (l := rest.dropWhile isDelL)).length_le
    omega
  · have h2 := (List.dropWhile_sublist isDelL (l := rest)).length_le
    omega
  · omega

/-- Line-number presence needed by the classifier (the data model provides
`new_lineno` for additions and `old_lineno` for deletions). -/
def classifierWF (lines : List DiffLine) : Prop :=
  ∀ l ∈ lines, (l.origin = .Addition → l.new_lineno.isSome = true) ∧
    (l.origin = .Deletion → l.old_lineno.isSome = true)

/-- The spec's §8 modification scenario: delete old line 2, add new line 2. -/
def wClassLines : List DiffLine :=
  [⟨.Deletion, "b\n", some 2, none⟩, ⟨.Addition, "X\n", none, some 2⟩]

/-! ## Theorems -/

/-- Full characterization of the counting loop of `generate_line_patch`:
counters add up the `oldIncr`/`newIncr` lines and the output collects one
`lineEntry` per non-`Header` line, in order. -/
theorem linePatch_foldl_char (sel : List Nat) (rev : Bool)
    (ps : List (Nat × DiffLine)) :
    ∀ (oc nc : Nat) (outs : List String),
      ps.foldl (linePatchStep sel rev) (oc, nc, outs) =
        (oc + ps.countP (oldIncr sel rev),
         nc + ps.countP (newIncr sel rev),
         outs ++ (ps.filter nonHeaderP).map (lineEntry sel rev)) := by
  induction ps with
  | nil => intro oc nc outs; simp
  | cons p ps ih =>
    intro oc nc outs
    obtain ⟨i, l⟩ := p
    obtain ⟨orig, cont, olno, nlno⟩ := l
    rw [List.foldl_cons]
    cases orig <;> cases rev <;> cases hc : decide (i ∈ sel) <;>
      simp only [linePatchStep, oldIncr, newIncr, lineEntry, nonHeaderP,
        List.contains, List.elem_eq_mem, hc, ih, List.countP_cons,
        List.filter_cons] <;>
      refine Prod.ext (by simp <;> omega) (Prod.ext (by simp <;> omega)
        (by simp [lineEntry, List.contains, List.elem_eq_mem, hc]))

theorem headChar_space (s : String) : headChar (" " ++ s) = some ' ' := by
  unfold headChar; rw [String.data_append]; rfl

theorem headChar_plus (s : String) : headChar ("+" ++ s) = some '+' := by
  unfold headChar; rw [String.data_append]; rfl

theorem headChar_minus (s : String) : headChar ("-" ++ s) = some '-' := by
  unfold headChar; rw [String.data_append]; rfl

/-- The counting loop, written as counts over the enumerated lines. -/
theorem linePatchFold_eq (sel : List Nat) (rev : Bool) (lines : List DiffLine) :
    linePatchFold sel rev lines =
      (lines.enum.countP (oldIncr sel rev),
       lines.enum.countP (newIncr sel rev),
       (lines.enum.filter nonHeaderP).map (lineEntry sel rev)) := by
  unfold linePatchFold
  rw [linePatch_foldl_char]
  simp

/-- Counter `old_count` counts exactly the emitted lines prefixed `' '` or `'-'`. -/
theorem countOldSide_entries (sel : List Nat) (rev : Bool)
    (ps : List (Nat × DiffLine)) :
    countOldSide ((ps.filter nonHeaderP).map (lineEntry sel rev)) =
      ps.countP (oldIncr sel rev) := by
  unfold countOldSide
  rw [List.countP_map, List.countP_filter]
  refine List.countP_congr ?_
  intro p _
  obtain ⟨i, l⟩ := p
  obtain ⟨orig, cont, olno, nlno⟩ := l
  cases orig <;> cases rev <;> cases hc : decide (i ∈ sel) <;>
    simp [lineEntry, oldIncr, nonHeaderP, List.contains, List.elem_eq_mem, hc,
      Function.comp, headChar_space, headChar_plus, headChar_minus]

/-- Counter `new_count` counts exactly the emitted lines prefixed `' '` or `'+'`. -/
theorem countNewSide_entries (sel : List Nat) (rev : Bool)
    (ps : List (Nat × DiffLine)) :
    countNewSide ((ps.filter nonHeaderP).map (lineEntry sel rev)) =
      ps.countP (newIncr sel rev) := by
  unfold countNewSide
  rw [List.countP_map, List.countP_filter]
  refine List.countP_congr ?_
  intro p _
  obtain ⟨i, l⟩ := p
  obtain ⟨orig, cont, olno, nlno⟩ := l
  cases orig <;> cases rev <;> cases hc : decide (i ∈ sel) <;>
    simp [lineEntry, newIncr, nonHeaderP, List.contains, List.elem_eq_mem, hc,
      Function.comp, headChar_space, headChar_plus, headChar_minus]

/-- With an empty selection every output line is a context line. -/
theorem countPlusMinus_nil_sel (rev : Bool) (ps : List (Nat × DiffLine)) :
    countPlusMinus ((ps.filter nonHeaderP).map (lineEntry [] rev)) = 0 := by
  unfold countPlusMinus
  rw [List.countP_map, List.countP_filter, List.countP_eq_zero]
  intro p _
  obtain ⟨i, l⟩ := p
  obtain ⟨orig, cont, olno, nlno⟩ := l
  cases orig <;> cases rev <;>
    simp [lineEntry, nonHeaderP, List.contains, List.elem_eq_mem,
      Function.comp, headChar_space, headChar_plus, headChar_minus]

/-- With an empty selection both counters count every non-`Header` line. -/
theorem incr_nil_sel (rev : Bool) (p : Nat × DiffLine) :
    oldIncr [] rev p = nonHeaderP p ∧ newIncr [] rev p = nonHeaderP p := by
  obtain ⟨i, l⟩ := p
  obtain ⟨orig, cont, olno, nlno⟩ := l
  cases orig <;> cases rev <;>
    simp [oldIncr, newIncr, nonHeaderP, List.contains, List.elem_eq_mem]

/-- The loop helpers depend on the selection only through membership of
the line index. -/
theorem incr_entry_congr (s1 s2 : List Nat) (rev : Bool) (p : Nat × DiffLine)
    (hag : decide (p.1 ∈ s1) = decide (p.1 ∈ s2)) :
    oldIncr s1 rev p = oldIncr s2 rev p ∧
    newIncr s1 rev p = newIncr s2 rev p ∧
    lineEntry s1 rev p = lineEntry s2 rev p := by
  obtain ⟨i, l⟩ := p
  obtain ⟨orig, cont, olno, nlno⟩ := l
  simp only at hag
  cases orig <;> cases rev <;> cases hc : decide (i ∈ s1) <;> rw [hc] at hag <;>
    simp [oldIncr, newIncr, lineEntry, List.contains, List.elem_eq_mem, hc,
      ← hag]

/-- The counting loop result is unchanged when the two selections agree on
every index below the number of lines. -/
theorem linePatchFold_congr (s1 s2 : List Nat) (rev : Bool)
    (lines : List DiffLine)
    (hag : ∀ i, i < lines.length → decide (i ∈ s1) = decide (i ∈ s2)) :
    linePatchFold s1 rev lines = linePatchFold s2 rev lines := by
  have hmem : ∀ p ∈ lines.enum, decide (p.1 ∈ s1) = decide (p.1 ∈ s2) := by
    intro p hp
    obtain ⟨i, x⟩ := p
    exact hag i (List.mem_enum hp).1
  rw [linePatchFold_eq, linePatchFold_eq]
  have h1 : lines.enum.countP (oldIncr s1 rev) =
      lines.enum.countP (oldIncr s2 rev) :=
    List.countP_congr fun p hp => by
      rw [(incr_entry_congr s1 s2 rev p (hmem p hp)).1]
  have h2 : lines.enum.countP (newIncr s1 rev) =
      lines.enum.countP (newIncr s2 rev) :=
    List.countP_congr fun p hp => by
      rw [(incr_entry_congr s1 s2 rev p (hmem p hp)).2.1]
  have h3 : (lines.enum.filter nonHeaderP).map (lineEntry s1 rev) =
      (lines.enum.filter nonHeaderP).map (lineEntry s2 rev) :=
    List.map_congr_left fun p hp =>
      (incr_entry_congr s1 s2 rev p (hmem p (List.mem_of_mem_filter hp))).2.2
  rw [h1, h2, h3]

/-- C1: in `generate_line_patch` the running counters do track the emitted
sides (`old_count` = lines prefixed `' '`/`'-'`, `new_count` = lines prefixed
`' '`/`'+'`), and for `reverse = false` the header prints them in the claimed
order; but at the failing input (one selected Addition line, `reverse = true`)
the header prints the counts swapped: first count `0` against `1` emitted
old-side line — the claim's equality fails on the code. -/
theorem C1_header_counts :
    (∀ (h : DiffHunk) (sel : List Nat) (rev : Bool),
        (linePatchFold sel rev h.lines).1 = countOldSide (linePatchOuts h sel rev) ∧
        (linePatchFold sel rev h.lines).2.1 = countNewSide (linePatchOuts h sel rev)) ∧
    (∀ (h : DiffHunk) (sel : List Nat),
        lineHeaderCounts h sel false =
          (countOldSide (linePatchOuts h sel false),
           countNewSide (linePatchOuts h sel false))) ∧
    lineHeaderCounts cexAddHunk [0] true = (0, 1) ∧
    countOldSide (linePatchOuts cexAddHunk [0] true) = 1 := by
  have hside : ∀ (h : DiffHunk) (sel : List Nat) (rev : Bool),
      (linePatchFold sel rev h.lines).1 = countOldSide (linePatchOuts h sel rev) ∧
      (linePatchFold sel rev h.lines).2.1 = countNewSide (linePatchOuts h sel rev) := by
    intro h sel rev
    unfold linePatchOuts
    rw [linePatchFold_eq]
    exact ⟨(countOldSide_entries sel rev h.lines.enum).symm,
      (countNewSide_entries sel rev h.lines.enum).symm⟩
  refine ⟨hside, ?_, by decide, by decide⟩
  intro h sel
  unfold lineHeaderCounts linePatchOuts
  rw [linePatchFold_eq]
  simp [countOldSide_entries, countNewSide_entries]

/-- C2: `generate_line_patch` processes each non-`Header` line according to
the origin×reverse×selected table: Context lines are context either way;
selected Additions (forward) and selected Deletions (reverse) emit `+` and
bump only `new_count`; selected Deletions (forward) and selected Additions
(reverse) emit `-` and bump only `old_count`; unselected Additions/Deletions
are emitted as context and bump both counters. -/
theorem C2_line_table (sel : List Nat) (rev : Bool) (oc nc : Nat)
    (outs : List String) (idx : Nat) (line : DiffLine) :
    (line.origin = .Context →
      linePatchStep sel rev (oc, nc, outs) (idx, line) =
        (oc + 1, nc + 1, outs ++ [" " ++ line.content])) ∧
    (rev = false → line.origin = .Addition → sel.contains idx = true →
      linePatchStep sel rev (oc, nc, outs) (idx, line) =
        (oc, nc + 1, outs ++ ["+" ++ line.content])) ∧
    (rev = true → line.origin = .Deletion → sel.contains idx = true →
      linePatchStep sel rev (oc, nc, outs) (idx, line) =
        (oc, nc + 1, outs ++ ["+" ++ line.content])) ∧
    (rev = false → line.origin = .Deletion → sel.contains idx = true →
      linePatchStep sel rev (oc, nc, outs) (idx, line) =
        (oc + 1, nc, outs ++ ["-" ++ line.content])) ∧
    (rev = true → line.origin = .Addition → sel.contains idx = true →
      linePatchStep sel rev (oc, nc, outs) (idx, line) =
        (oc + 1, nc, outs ++ ["-" ++ line.content])) ∧
    ((line.origin = .Addition ∨ line.origin = .Deletion) →
      sel.contains idx = false →
      linePatchStep sel rev (oc, nc, outs) (idx, line) =
        (oc + 1, nc + 1, outs ++ [" " ++ line.content])) := by
  obtain ⟨orig, cont, olno, nlno⟩ := line
  cases orig <;> cases rev <;> cases hc : decide (idx ∈ sel) <;>
    simp [linePatchStep, List.contains, List.elem_eq_mem, hc]

/-- Witness for C2 at a concrete selected Addition line. -/
theorem C2_line_table_witness :
    linePatchStep [0] false (0, 0, []) (0, ⟨.Addition, "x", none, some 1⟩) =
      (0, 1, ["+x"]) := by
  have h := C2_line_table [0] false 0 0 [] 0 ⟨.Addition, "x", none, some 1⟩
  simpa using h.2.1 rfl rfl (by decide)

/-- C9: with an empty selection `generate_line_patch` prints two equal header
counts and emits no `+`/`-` body line, for both values of `reverse` and every
hunk. -/
theorem nilSel_counts (rev : Bool) (lines : List DiffLine) :
    lines.enum.countP (oldIncr [] rev) = lines.enum.countP (newIncr [] rev) := by
  refine List.countP_congr ?_
  intro p _
  rw [(incr_nil_sel rev p).1, (incr_nil_sel rev p).2]

theorem C9_empty_selection (h : DiffHunk) (rev : Bool) :
    (lineHeaderCounts h [] rev).1 = (lineHeaderCounts h [] rev).2 ∧
    countPlusMinus (linePatchOuts h [] rev) = 0 := by
  have hcnt := nilSel_counts rev h.lines
  constructor
  · unfold lineHeaderCounts
    rw [linePatchFold_eq]
    cases rev <;> simp [hcnt]
  · unfold linePatchOuts
    rw [linePatchFold_eq]
    exact countPlusMinus_nil_sel rev h.lines.enum

/-- Witness for C9 at the three-line hunk (no hypotheses to discharge; the
theorem is applied at a concrete hunk and reverse flag). -/
theorem C9_empty_selection_witness :
    (lineHeaderCounts wHunk [] true).1 = (lineHeaderCounts wHunk [] true).2 ∧
    countPlusMinus (linePatchOuts wHunk [] true) = 0 :=
  C9_empty_selection wHunk true

/-- C10: the output of `generate_line_patch` depends on the selection list
only through membership: index lists with the same members (any order,
duplicates, out-of-range entries allowed) give identical patch text. -/
theorem C10_selection_membership (path : String) (h : DiffHunk) (rev : Bool)
    (s1 s2 : List Nat) (hmem : ∀ i, i ∈ s1 ↔ i ∈ s2) :
    generate_line_patch path h s1 rev = generate_line_patch path h s2 rev := by
  have hfold := linePatchFold_congr s1 s2 rev h.lines
    (fun i _ => decide_eq_decide.mpr (hmem i))
  unfold generate_line_patch
  rw [hfold]

/-- Witness for C10: permutation plus duplicate plus out-of-range index. -/
theorem C10_selection_membership_witness :
    generate_line_patch fpath wHunk [1, 2, 2, 9] false =
      generate_line_patch fpath wHunk [2, 9, 1] false :=
  C10_selection_membership fpath wHunk false [1, 2, 2, 9] [2, 9, 1]
    (by intro i; constructor <;> (intro hm; simp at hm ⊢; omega))

/-- Counting a predicate on the line component over the enumerated list is
counting it over the lines. -/
theorem countP_enum_snd (q : DiffLine → Bool) (lines : List DiffLine) :
    lines.enum.countP (fun p => q p.2) = lines.countP q := by
  conv_rhs => rw [← List.enum_map_snd lines]
  rw [List.countP_map]
  rfl

/-- An all-out-of-range selection behaves like the empty selection. -/
theorem linePatchFold_oob (hunk : DiffHunk) (sel : List Nat)
    (hsel : ∀ i ∈ sel, hunk.lines.length ≤ i) :
    linePatchFold sel false hunk.lines = linePatchFold [] false hunk.lines := by
  refine linePatchFold_congr sel [] false hunk.lines ?_
  intro i hi
  have hni : i ∉ sel := fun hm => absurd (hsel i hm) (by omega)
  simp [hni]

/-- C6 counterexample: requesting line index 5 of a one-line hunk is not
rejected; `stage_lines` succeeds and hands the degenerate no-op patch
(equal header counts, no `+`/`-` lines) to the apply step. -/
theorem C6_counterexample :
    stage_lines cexFiles fpath 0 [5] =
      .ok (generate_line_patch fpath cexAddHunk [5] false) ∧
    (lineHeaderCounts cexAddHunk [5] false).1 =
      (lineHeaderCounts cexAddHunk [5] false).2 ∧
    countPlusMinus (linePatchOuts cexAddHunk [5] false) = 0 := by
  refine ⟨rfl, by decide, by decide⟩

/-- C6 (amended): a missing hunk index yields the hunk-index-out-of-range
error in all four operations (and the operations are total, so they cannot
panic); but a line index not in the hunk is silently ignored by
`stage_lines`: it always succeeds for a valid hunk index, and when every
selected index is out of range the generated patch is the structural no-op. -/
theorem C6_index_validation :
    (∀ (files : List DiffFile) (file : DiffFile) (path : String) (idx : Nat)
        (sel : List Nat),
      files.head? = some file → file.hunks.get? idx = none →
        stage_hunk files path idx = .error (.General msgHunkOutOfRange) ∧
        unstage_hunk files path idx = .error (.General msgHunkOutOfRange) ∧
        discard_hunk files path idx = .error (.General msgHunkOutOfRange) ∧
        stage_lines files path idx sel = .error (.General msgHunkOutOfRange)) ∧
    (∀ (files : List DiffFile) (file : DiffFile) (path : String) (idx : Nat)
        (hunk : DiffHunk) (sel : List Nat),
      files.head? = some file → file.hunks.get? idx = some hunk →
        stage_lines files path idx sel =
          .ok (generate_line_patch path hunk sel false)) ∧
    (∀ (hunk : DiffHunk) (sel : List Nat),
      (∀ i ∈ sel, hunk.lines.length ≤ i) →
        (lineHeaderCounts hunk sel false).1 =
          (lineHeaderCounts hunk sel false).2 ∧
        countPlusMinus (linePatchOuts hunk sel false) = 0) := by
  refine ⟨?_, ?_, ?_⟩
  · intro files file path idx sel h1 h2
    rw [List.get?_eq_getElem?] at h2
    refine ⟨?_, ?_, ?_, ?_⟩ <;>
      simp [stage_hunk, unstage_hunk, discard_hunk, stage_lines, h1, h2]
  · intro files file path idx hunk sel h1 h2
    rw [List.get?_eq_getElem?] at h2
    simp [stage_lines, h1, h2]
  · intro hunk sel hsel
    have hfold := linePatchFold_oob hunk sel hsel
    constructor
    · unfold lineHeaderCounts
      rw [hfold, linePatchFold_eq]
      simpa using nilSel_counts false hunk.lines
    · unfold linePatchOuts
      rw [hfold, linePatchFold_eq]
      exact countPlusMinus_nil_sel false hunk.lines.enum

/-- Witness for C6: a hunk index past the end errors; an all-out-of-range
line selection on the sample hunk yields the structural no-op. -/
theorem C6_index_validation_witness :
    stage_hunk cexFiles fpath 3 = .error (.General msgHunkOutOfRange) ∧
    (lineHeaderCounts cexAddHunk [5] false).1 =
      (lineHeaderCounts cexAddHunk [5] false).2 := by
  constructor
  · exact (C6_index_validation.1 cexFiles
      ⟨some fpath, some fpath, [cexAddHunk], false⟩ fpath 3 [] rfl rfl).1
  · exact (C6_index_validation.2.2 cexAddHunk [5] (by decide)).1

/-- C5 counterexample: the one-Deletion hunk is well-formed, the empty list
is exactly the list of its Addition indices, yet the line-patch header counts
`(1, 1)` differ from the hunk-patch header counts `(1, 0)`. -/
theorem C5_counterexample :
    (cexDelHunk.old_lines =
        cexDelHunk.lines.countP
          (fun l => l.origin == .Context || l.origin == .Deletion) ∧
      cexDelHunk.new_lines =
        cexDelHunk.lines.countP
          (fun l => l.origin == .Context || l.origin == .Addition)) ∧
    (∀ i, ([] : List Nat).contains i = true ↔
        ∃ l, cexDelHunk.lines.get? i = some l ∧ l.origin = .Addition) ∧
    lineHeaderCounts cexDelHunk [] false ≠ hunkHeaderCounts cexDelHunk false := by
  refine ⟨by decide, ?_, by decide⟩
  intro i
  cases i <;> simp [cexDelHunk]

/-- C5 (amended): for a well-formed hunk with no Deletion lines, selecting
exactly the Addition indices makes the `generate_line_patch` header counts
equal to the `generate_hunk_patch` header counts (non-reverse). With a
Deletion line present the counts differ (see the counterexample): the
unselected deletion is emitted as context and inflates `new_count`. -/
theorem C5_no_deletion (h : DiffHunk) (sel : List Nat)
    (hwf_old : h.old_lines = h.lines.countP
        (fun l => l.origin == .Context || l.origin == .Deletion))
    (hwf_new : h.new_lines = h.lines.countP
        (fun l => l.origin == .Context || l.origin == .Addition))
    (hnodel : h.lines.countP (fun l => l.origin == .Deletion) = 0)
    (hsel : ∀ i, sel.contains i = true ↔
        ∃ l, h.lines.get? i = some l ∧ l.origin = .Addition) :
    lineHeaderCounts h sel false = hunkHeaderCounts h false := by
  have hnomem : ∀ l ∈ h.lines, l.origin ≠ .Deletion := by
    intro l hl hor
    have := List.countP_eq_zero.mp hnodel l hl
    simp [hor] at this
  have hold2 : h.lines.enum.countP (oldIncr sel false) =
      h.lines.countP (fun l => l.origin == .Context) := by
    refine Eq.trans (List.countP_congr ?_) (countP_enum_snd _ _)
    intro p hp
    obtain ⟨i, l⟩ := p
    obtain ⟨hi, hx⟩ := List.mem_enum hp
    have hmem : l ∈ h.lines := by rw [hx]; exact List.getElem_mem hi
    cases horig : l.origin with
    | Context => simp [oldIncr, horig]
    | Header => simp [oldIncr, horig]
    | Deletion => exact absurd horig (hnomem l hmem)
    | Addition =>
      have hc : sel.contains i = true := by
        refine (hsel i).mpr ⟨l, ?_, horig⟩
        rw [List.get?_eq_getElem?, List.getElem?_eq_getElem hi, hx]
      have hc2 : decide (i ∈ sel) = true := by
        simpa [List.contains, List.elem_eq_mem] using hc
      simp [oldIncr, horig, List.contains, List.elem_eq_mem, hc2]
  have hnew2 : h.lines.enum.countP (newIncr sel false) =
      h.lines.countP (fun l => l.origin == .Context || l.origin == .Addition) := by
    refine Eq.trans (List.countP_congr ?_) (countP_enum_snd _ _)
    intro p hp
    obtain ⟨i, l⟩ := p
    obtain ⟨hi, hx⟩ := List.mem_enum hp
    have hmem : l ∈ h.lines := by rw [hx]; exact List.getElem_mem hi
    cases horig : l.origin with
    | Context => simp [newIncr, horig]
    | Header => simp [newIncr, horig]
    | Deletion => exact absurd horig (hnomem l hmem)
    | Addition =>
      cases hc : decide (i ∈ sel) <;>
        simp [newIncr, horig, List.contains, List.elem_eq_mem, hc]
  have hD : h.lines.countP (fun l => l.origin == .Context || l.origin == .Deletion)
      = h.lines.countP (fun l => l.origin == .Context) := by
    refine List.countP_congr ?_
    intro l hl
    cases horig : l.origin with
    | Context => simp [horig]
    | Header => simp [horig]
    | Addition => simp [horig]
    | Deletion => exact absurd horig (hnomem l hl)
  unfold lineHeaderCounts hunkHeaderCounts
  rw [linePatchFold_eq]
  simp [hold2, hnew2, hwf_old, hwf_new, hD]

/-- Witness for C5 at the context+addition hunk with selection `[1]`. -/
theorem C5_no_deletion_witness :
    lineHeaderCounts w5Hunk [1] false = hunkHeaderCounts w5Hunk false := by
  refine C5_no_deletion w5Hunk [1] (by decide) (by decide) (by decide) ?_
  intro i
  rcases i with _ | _ | n <;> simp [w5Hunk]

/-- Decimal digit characters are never a newline. -/
theorem digitChar_ne_nl (n : Nat) : (Nat.digitChar n == '\n') = false := by
  rcases Nat.lt_or_ge n 16 with h | h
  · interval_cases n <;> rfl
  · unfold Nat.digitChar
    repeat rw [if_neg (by omega)]
    rfl

/-- Function `Nat.toDigitsCore` only prepends digit characters. -/
theorem toDigitsCore_clean (b : Nat) : ∀ (f n : Nat) (ds : List Char),
    ds.all (fun c => !(c == '\n')) = true →
    (Nat.toDigitsCore b f n ds).all (fun c => !(c == '\n')) = true := by
  intro f
  induction f with
  | zero => intro n ds h; simpa [Nat.toDigitsCore] using h
  | succ f ih =>
    intro n ds h
    rw [Nat.toDigitsCore]
    have hd : ((n % b).digitChar :: ds).all (fun c => !(c == '\n')) = true := by
      simp [digitChar_ne_nl, h]
    split
    · exact hd
    · exact ih _ _ hd

/-- The decimal print of a number contains no newline. -/
theorem repr_clean (n : Nat) : cleanStr (Nat.repr n) = true :=
  toDigitsCore_clean 10 (n + 1) n [] rfl

/-- Newline-freeness is preserved by concatenation. -/
theorem cleanStr_append (s t : String) (hs : cleanStr s = true)
    (ht : cleanStr t = true) : cleanStr (s ++ t) = true := by
  unfold cleanStr at *
  rw [String.data_append, List.all_append, hs, ht]
  rfl

/-- Appending a newline to a newline-free string gives one physical line. -/
theorem isLine_append_nl (s : String) (hs : cleanStr s = true) :
    isLine (s ++ nl) = true := by
  unfold isLine
  rw [String.data_append, show nl.data = ['\n'] from rfl,
    List.getLast?_concat, List.dropLast_concat]
  unfold cleanStr at hs
  rw [hs]
  rfl

/-- A character list whose front is newline-free and whose last entry is not
a newline is newline-free. -/
theorem all_ne_nl_of (l : List Char)
    (h1 : l.dropLast.all (fun c => !(c == '\n')) = true)
    (h2 : (l.getLast? == some '\n') = false) :
    l.all (fun c => !(c == '\n')) = true := by
  rcases List.eq_nil_or_concat l with rfl | ⟨L, b, rfl⟩
  · rfl
  · rw [List.concat_eq_append] at *
    rw [List.dropLast_concat] at h1
    rw [List.getLast?_concat] at h2
    rw [List.all_append, h1]
    simpa using h2

/-- Function `ensureNl` turns any single-line content into one newline-terminated
physical line. -/
theorem isLine_ensureNl (s : String) (hsl : singleLineContent s = true) :
    isLine (ensureNl s) = true := by
  unfold ensureNl
  unfold singleLineContent at hsl
  split
  · next hend =>
    unfold endsWithNl at hend
    unfold isLine
    rw [hend, hsl]
    rfl
  · next hend =>
    unfold endsWithNl at hend
    unfold isLine
    rw [String.data_append, show nl.data = ['\n'] from rfl,
      List.getLast?_concat, List.dropLast_concat]
    rw [all_ne_nl_of s.data hsl (by simpa using hend)]
    rfl

theorem headChar_ensureNl_space (s : String) :
    headChar (ensureNl (" " ++ s)) = some ' ' := by
  unfold ensureNl
  split
  · exact headChar_space s
  · rw [String.append_assoc]; exact headChar_space (s ++ nl)

theorem headChar_ensureNl_plus (s : String) :
    headChar (ensureNl ("+" ++ s)) = some '+' := by
  unfold ensureNl
  split
  · exact headChar_plus s
  · rw [String.append_assoc]; exact headChar_plus (s ++ nl)

theorem headChar_ensureNl_minus (s : String) :
    headChar (ensureNl ("-" ++ s)) = some '-' := by
  unfold ensureNl
  split
  · exact headChar_minus s
  · rw [String.append_assoc]; exact headChar_minus (s ++ nl)

/-- A non-newline character prepended to single-line data keeps it
single-line. -/
theorem singleLine_cons (c : Char) (hc : (c == '\n') = false) (l : List Char)
    (hl : l.dropLast.all (fun x => !(x == '\n')) = true) :
    (c :: l).dropLast.all (fun x => !(x == '\n')) = true := by
  cases l with
  | nil => rfl
  | cons a t =>
    rw [List.dropLast_cons₂, List.all_cons, hl, hc]
    rfl

theorem singleLineContent_space (s : String)
    (hs : singleLineContent s = true) :
    singleLineContent (" " ++ s) = true := by
  unfold singleLineContent at *
  rw [String.data_append, show (" ").data = [' '] from rfl,
    List.singleton_append]
  exact singleLine_cons ' ' rfl s.data hs

theorem singleLineContent_plus (s : String)
    (hs : singleLineContent s = true) :
    singleLineContent ("+" ++ s) = true := by
  unfold singleLineContent at *
  rw [String.data_append, show ("+").data = ['+'] from rfl,
    List.singleton_append]
  exact singleLine_cons '+' rfl s.data hs

theorem singleLineContent_minus (s : String)
    (hs : singleLineContent s = true) :
    singleLineContent ("-" ++ s) = true := by
  unfold singleLineContent at *
  rw [String.data_append, show ("-").data = ['-'] from rfl,
    List.singleton_append]
  exact singleLine_cons '-' rfl s.data hs

theorem entryProps_space (cont : String) (hs : singleLineContent cont = true) :
    isLine (ensureNl (" " ++ cont)) = true ∧
    headChar (ensureNl (" " ++ cont)) = some ' ' :=
  ⟨isLine_ensureNl _ (singleLineContent_space cont hs),
   headChar_ensureNl_space cont⟩

theorem entryProps_plus (cont : String) (hs : singleLineContent cont = true) :
    isLine (ensureNl ("+" ++ cont)) = true ∧
    headChar (ensureNl ("+" ++ cont)) = some '+' :=
  ⟨isLine_ensureNl _ (singleLineContent_plus cont hs),
   headChar_ensureNl_plus cont⟩

theorem entryProps_minus (cont : String) (hs : singleLineContent cont = true) :
    isLine (ensureNl ("-" ++ cont)) = true ∧
    headChar (ensureNl ("-" ++ cont)) = some '-' :=
  ⟨isLine_ensureNl _ (singleLineContent_minus cont hs),
   headChar_ensureNl_minus cont⟩

/-- Every `lines_output` entry becomes, after the final newline fix, one
newline-terminated line starting with `' '`, `'+'` or `'-'`. -/
theorem entry_line_props (sel : List Nat) (rev : Bool) (p : Nat × DiffLine)
    (hs : singleLineContent p.2.content = true) :
    isLine (ensureNl (lineEntry sel rev p)) = true ∧
    (headChar (ensureNl (lineEntry sel rev p)) == some ' ' ||
     headChar (ensureNl (lineEntry sel rev p)) == some '+' ||
     headChar (ensureNl (lineEntry sel rev p)) == some '-') = true := by
  obtain ⟨i, l⟩ := p
  obtain ⟨orig, cont, olno, nlno⟩ := l
  simp only at hs
  cases orig <;> cases rev <;> cases hc : decide (i ∈ sel) <;>
    simp +decide [lineEntry, List.contains, List.elem_eq_mem, hc,
      (entryProps_space cont hs).1, (entryProps_space cont hs).2,
      (entryProps_plus cont hs).1, (entryProps_plus cont hs).2,
      (entryProps_minus cont hs).1, (entryProps_minus cont hs).2]

/-- A fold that appends per-element strings is the starting string followed
by the concatenation of the per-element strings. -/
theorem foldl_append_eq {α : Type} (g : α → String) (xs : List α)
    (acc : String) :
    xs.foldl (fun a x => a ++ g x) acc = acc ++ strConcat (xs.map g) := by
  induction xs generalizing acc with
  | nil => rw [List.foldl_nil, List.map_nil]; exact (String.append_empty acc).symm
  | cons x xs ih =>
    rw [List.foldl_cons, ih, List.map_cons, String.append_assoc]
    rfl

theorem endsWithNl_space (s : String) :
    endsWithNl (" " ++ s) = endsWithNl s := by
  unfold endsWithNl
  rw [String.data_append, show (" ").data = [' '] from rfl,
    List.singleton_append]
  cases s.data with
  | nil => rfl
  | cons a t => rw [List.getLast?_cons_cons]

theorem endsWithNl_plus (s : String) :
    endsWithNl ("+" ++ s) = endsWithNl s := by
  unfold endsWithNl
  rw [String.data_append, show ("+").data = ['+'] from rfl,
    List.singleton_append]
  cases s.data with
  | nil => rfl
  | cons a t => rw [List.getLast?_cons_cons]

theorem endsWithNl_minus (s : String) :
    endsWithNl ("-" ++ s) = endsWithNl s := by
  unfold endsWithNl
  rw [String.data_append, show ("-").data = ['-'] from rfl,
    List.singleton_append]
  cases s.data with
  | nil => rfl
  | cons a t => rw [List.getLast?_cons_cons]

/-- For non-`Header` lines the per-line output of `generate_hunk_patch` is
exactly the newline-fixed prefixed content. -/
theorem hunkLineOut_eq_ensureNl (rev : Bool) (l : DiffLine)
    (hnh : l.origin ≠ .Header) :
    hunkLineOut rev l = ensureNl (hunkLineBody rev l) := by
  obtain ⟨orig, cont, olno, nlno⟩ := l
  unfold hunkLineOut ensureNl contentNl
  cases orig <;> cases rev <;>
    first
    | exact absurd rfl hnh
    | (simp only [hunkLineBody, endsWithNl_space, endsWithNl_plus,
        endsWithNl_minus]
       cases hend : endsWithNl cont <;>
         simp [hend, String.append_empty])

/-- A `Header` line whose content already ends in a newline contributes
nothing to the hunk patch. -/
theorem hunkLineOut_header (rev : Bool) (l : DiffLine)
    (hH : l.origin = .Header) (he : endsWithNl l.content = true) :
    hunkLineOut rev l = "" := by
  obtain ⟨orig, cont, olno, nlno⟩ := l
  simp only at hH he
  subst hH
  unfold hunkLineOut hunkLineBody contentNl
  rw [he]
  rfl

/-- Dropping the (empty) `Header` outputs from the concatenation. -/
theorem strConcat_map_filter (rev : Bool) (lines : List DiffLine)
    (hhdr : ∀ l ∈ lines, l.origin = .Header → hunkLineOut rev l = "") :
    strConcat (lines.map (hunkLineOut rev)) =
      strConcat ((lines.filter (fun l => l.origin != .Header)).map
        (hunkLineOut rev)) := by
  induction lines with
  | nil => rfl
  | cons l ls ih =>
    have ihh := ih fun x hx hH => hhdr x (List.mem_cons_of_mem l hx) hH
    rw [List.map_cons, List.filter_cons]
    by_cases hH : l.origin = .Header
    · rw [show strConcat (hunkLineOut rev l :: List.map (hunkLineOut rev) ls) =
          hunkLineOut rev l ++ strConcat (List.map (hunkLineOut rev) ls)
          from rfl,
        hhdr l (List.mem_cons_self l ls) hH, String.empty_append, ihh]
      simp [hH]
    · have ht : (l.origin != DiffLineType.Header) = true := by
        simp [hH]
      rw [ht, if_pos rfl, List.map_cons]
      show hunkLineOut rev l ++ _ = hunkLineOut rev l ++ _
      rw [ihh]

/-- Each non-`Header` hunk-patch line is a newline-terminated line starting
with `' '`, `'+'` or `'-'`. -/
theorem hunk_line_props (rev : Bool) (l : DiffLine) (hnh : l.origin ≠ .Header)
    (hs : singleLineContent l.content = true) :
    isLine (hunkLineOut rev l) = true ∧
    (headChar (hunkLineOut rev l) == some ' ' ||
     headChar (hunkLineOut rev l) == some '+' ||
     headChar (hunkLineOut rev l) == some '-') = true := by
  rw [hunkLineOut_eq_ensureNl rev l hnh]
  obtain ⟨orig, cont, olno, nlno⟩ := l
  simp only at hs
  cases orig <;> cases rev <;>
    first
    | exact absurd rfl hnh
    | simp +decide [hunkLineBody,
        (entryProps_space cont hs).1, (entryProps_space cont hs).2,
        (entryProps_plus cont hs).1, (entryProps_plus cont hs).2,
        (entryProps_minus cont hs).1, (entryProps_minus cont hs).2]

/-- The first character of each hunk-patch line, by origin and direction. -/
theorem hunkLineOut_headChar (rev : Bool) (l : DiffLine) :
    (l.origin = .Context → headChar (hunkLineOut rev l) = some ' ') ∧
    (l.origin = .Addition →
      headChar (hunkLineOut rev l) = some (if rev then '-' else '+')) ∧
    (l.origin = .Deletion →
      headChar (hunkLineOut rev l) = some (if rev then '+' else '-')) := by
  obtain ⟨orig, cont, olno, nlno⟩ := l
  cases orig <;> cases rev <;>
    simp [hunkLineOut, hunkLineBody, String.append_assoc,
      headChar_space, headChar_plus, headChar_minus]

/-- The hunk-header line is one newline-terminated physical line. -/
theorem atHeader_isLine (a b c d : Nat) : isLine (atHeader a b c d) = true := by
  refine isLine_append_nl _ ?_
  unfold atHeaderBody
  repeat' apply cleanStr_append
  all_goals first | exact repr_clean _ | decide

theorem lineA_isLine (path : String) (hpath : cleanStr path = true) :
    isLine (lineA path) = true :=
  isLine_append_nl _ (cleanStr_append _ _ (by decide) hpath)

theorem lineB_isLine (path : String) (hpath : cleanStr path = true) :
    isLine (lineB path) = true :=
  isLine_append_nl _ (cleanStr_append _ _ (by decide) hpath)

/-- C3: `generate_hunk_patch` is the two file-header lines, one hunk header
whose four numbers are `old_start, old_lines, new_start, new_lines`
(swapped as two pairs when `reverse`), and the hunk's lines with prefix
`' '` for Context, `'+'`/`'-'` for Addition and `'-'`/`'+'` for Deletion in
forward/reverse direction. -/
theorem C3_hunk_patch_layout (path : String) (h : DiffHunk) (rev : Bool) :
    generate_hunk_patch path h rev =
      lineA path ++ (lineB path ++
        (atHeader (if rev then h.new_start else h.old_start)
          (if rev then h.new_lines else h.old_lines)
          (if rev then h.old_start else h.new_start)
          (if rev then h.old_lines else h.new_lines) ++
        strConcat (h.lines.map (hunkLineOut rev)))) ∧
    (∀ l ∈ h.lines,
      (l.origin = .Context → headChar (hunkLineOut rev l) = some ' ') ∧
      (l.origin = .Addition →
        headChar (hunkLineOut rev l) = some (if rev then '-' else '+')) ∧
      (l.origin = .Deletion →
        headChar (hunkLineOut rev l) = some (if rev then '+' else '-'))) := by
  constructor
  · unfold generate_hunk_patch
    rw [foldl_append_eq]
    unfold fileHeader
    cases rev <;> simp [String.append_assoc]
  · intro l _
    exact hunkLineOut_headChar rev l

/-- Witness for C3 at the three-line hunk: the addition line gets `'+'`
forward and `'-'` reverse, the deletion line gets `'-'` forward. -/
theorem C3_hunk_patch_layout_witness :
    headChar (hunkLineOut false (⟨.Addition, "b\n", none, some 2⟩ : DiffLine))
      = some '+' ∧
    headChar (hunkLineOut true (⟨.Addition, "b\n", none, some 2⟩ : DiffLine))
      = some '-' ∧
    headChar (hunkLineOut false (⟨.Deletion, "c\n", some 2, none⟩ : DiffLine))
      = some '-' := by
  refine ⟨?_, ?_, ?_⟩
  · exact ((C3_hunk_patch_layout fpath wHunk false).2
      ⟨.Addition, "b\n", none, some 2⟩ (by simp [wHunk])).2.1 rfl
  · exact ((C3_hunk_patch_layout fpath wHunk true).2
      ⟨.Addition, "b\n", none, some 2⟩ (by simp [wHunk])).2.1 rfl
  · exact ((C3_hunk_patch_layout fpath wHunk false).2
      ⟨.Deletion, "c\n", some 2, none⟩ (by simp [wHunk])).2.2 rfl

/-- C7 counterexample: `cexHdrHunk`'s only line is a `Header` line whose
content does not end in a newline; `generate_hunk_patch` emits a stray bare
newline after the hunk header — an extra empty un-prefixed line — so the
output is not the claimed exact structure. -/
theorem C7_counterexample :
    (∀ l ∈ cexHdrHunk.lines, singleLineContent l.content = true) ∧
    generate_hunk_patch fpath cexHdrHunk false =
      strConcat [lineA fpath, lineB fpath, atHeader 1 0 1 0] ++ nl ∧
    generate_hunk_patch fpath cexHdrHunk false ≠
      strConcat ([lineA fpath, lineB fpath, atHeader 1 0 1 0] ++
        (cexHdrHunk.lines.filter (fun l => l.origin != .Header)).map
          (hunkLineOut false)) := by
  refine ⟨by decide, by decide, by decide⟩

/-- C7 (amended): `generate_line_patch` output is exactly two file-header
lines, one hunk-header line and one newline-terminated `' '`/`'+'`/`'-'`
prefixed line per non-`Header` diff line (for newline-free paths and
single-line contents). The same holds for `generate_hunk_patch` provided
every `Header` line's content ends with a newline; otherwise a stray empty
line appears (see the counterexample). -/
theorem C7_structure :
    (∀ (path : String) (h : DiffHunk) (sel : List Nat) (rev : Bool),
      cleanStr path = true →
      (∀ l ∈ h.lines, singleLineContent l.content = true) →
      generate_line_patch path h sel rev =
        strConcat ([lineA path, lineB path,
          atHeader (if rev then h.new_start else h.old_start)
            (lineHeaderCounts h sel rev).1
            (if rev then h.old_start else h.new_start)
            (lineHeaderCounts h sel rev).2] ++
          (linePatchOuts h sel rev).map ensureNl) ∧
      isLine (lineA path) = true ∧ isLine (lineB path) = true ∧
      (∀ a b c d : Nat, isLine (atHeader a b c d) = true) ∧
      (∀ s ∈ (linePatchOuts h sel rev).map ensureNl,
        isLine s = true ∧
        (headChar s == some ' ' || headChar s == some '+' ||
          headChar s == some '-') = true) ∧
      ((linePatchOuts h sel rev).map ensureNl).length =
        h.lines.countP (fun l => l.origin != .Header)) ∧
    (∀ (path : String) (h : DiffHunk) (rev : Bool),
      cleanStr path = true →
      (∀ l ∈ h.lines, singleLineContent l.content = true) →
      (∀ l ∈ h.lines, l.origin = .Header → endsWithNl l.content = true) →
      generate_hunk_patch path h rev =
        strConcat ([lineA path, lineB path,
          atHeader (if rev then h.new_start else h.old_start)
            (if rev then h.new_lines else h.old_lines)
            (if rev then h.old_start else h.new_start)
            (if rev then h.old_lines else h.new_lines)] ++
          (h.lines.filter (fun l => l.origin != .Header)).map
            (hunkLineOut rev)) ∧
      (∀ s ∈ (h.lines.filter (fun l => l.origin != .Header)).map
          (hunkLineOut rev),
        isLine s = true ∧
        (headChar s == some ' ' || headChar s == some '+' ||
          headChar s == some '-') = true) ∧
      ((h.lines.filter (fun l => l.origin != .Header)).map
          (hunkLineOut rev)).length =
        h.lines.countP (fun l => l.origin != .Header)) := by
  constructor
  · intro path h sel rev hpath hwf
    have houts : linePatchOuts h sel rev =
        (h.lines.enum.filter nonHeaderP).map (lineEntry sel rev) := by
      unfold linePatchOuts
      rw [linePatchFold_eq]
    refine ⟨?_, lineA_isLine path hpath, lineB_isLine path hpath,
      fun a b c d => atHeader_isLine a b c d, ?_, ?_⟩
    · rcases hfold : linePatchFold sel rev h.lines with ⟨oc, nc, outs⟩
      unfold generate_line_patch lineHeaderCounts linePatchOuts
      rw [hfold]
      dsimp only
      rw [foldl_append_eq]
      unfold fileHeader
      cases rev <;> simp [strConcat, String.append_assoc]
    · intro s hs
      rw [houts, List.map_map] at hs
      obtain ⟨p, hp, rfl⟩ := List.mem_map.mp hs
      obtain ⟨i, l⟩ := p
      have hl : l ∈ h.lines := by
        have hpe := List.mem_of_mem_filter hp
        obtain ⟨hi, hx⟩ := List.mem_enum hpe
        rw [hx]
        exact List.getElem_mem hi
      exact entry_line_props sel rev (i, l) (hwf l hl)
    · rw [houts, List.length_map, List.length_map,
        ← List.countP_eq_length_filter]
      show h.lines.enum.countP nonHeaderP = _
      exact countP_enum_snd (fun l => l.origin != .Header) h.lines
  · intro path h rev hpath hwf hhdr
    have hhdr0 : ∀ l ∈ h.lines, l.origin = .Header → hunkLineOut rev l = "" :=
      fun l hl hH => hunkLineOut_header rev l hH (hhdr l hl hH)
    refine ⟨?_, ?_, ?_⟩
    · unfold generate_hunk_patch
      rw [foldl_append_eq, strConcat_map_filter rev h.lines hhdr0]
      unfold fileHeader
      cases rev <;> simp [strConcat, String.append_assoc]
    · intro s hs
      obtain ⟨l, hl, rfl⟩ := List.mem_map.mp hs
      have hnh : l.origin ≠ .Header := by
        have := List.of_mem_filter hl
        simpa using this
      exact hunk_line_props rev l hnh (hwf l (List.mem_of_mem_filter hl))
    · rw [List.length_map, ← List.countP_eq_length_filter]

/-- Witness for C7 at concrete hunks: one body line for the one-addition
hunk, and the exact layout of the three-line hunk patch. -/
theorem C7_structure_witness :
    ((linePatchOuts cexAddHunk [0] false).map ensureNl).length = 1 ∧
    generate_hunk_patch fpath wHunk false =
      strConcat ([lineA fpath, lineB fpath, atHeader 1 2 1 2] ++
        (wHunk.lines.filter (fun l => l.origin != .Header)).map
          (hunkLineOut false)) := by
  constructor
  · have hlen := (C7_structure.1 fpath cexAddHunk [0] false (by decide)
      (by decide)).2.2.2.2.2
    exact hlen.trans (by decide)
  · exact (C7_structure.2 fpath wHunk false (by decide) (by decide)
      (by decide)).1

/-- C8: under the diff-engine contract on counters, every hunk built by
`parse_diff` satisfies `old_lines = #Context + #Deletion` and
`new_lines = #Context + #Addition`. -/
theorem C8_parse_counts (eh : EngineHunk) (hwf : engineCountsWF eh) :
    (parseHunk eh).old_lines = (parseHunk eh).lines.countP
      (fun l => l.origin == .Context || l.origin == .Deletion) ∧
    (parseHunk eh).new_lines = (parseHunk eh).lines.countP
      (fun l => l.origin == .Context || l.origin == .Addition) := by
  obtain ⟨h1, h2⟩ := hwf
  constructor
  · show eh.old_lines = (eh.lines.map parseLine).countP _
    rw [h1, List.countP_map]
    refine List.countP_congr ?_
    intro el _
    by_cases hp : el.origin = '+'
    · simp [parseLine, parseOrigin, hp, Function.comp]
    · by_cases hm : el.origin = '-'
      · simp [parseLine, parseOrigin, hp, hm, Function.comp]
      · simp [parseLine, parseOrigin, hp, hm, Function.comp]
  · show eh.new_lines = (eh.lines.map parseLine).countP _
    rw [h2, List.countP_map]
    refine List.countP_congr ?_
    intro el _
    by_cases hp : el.origin = '+'
    · simp [parseLine, parseOrigin, hp, Function.comp]
    · by_cases hm : el.origin = '-'
      · simp [parseLine, parseOrigin, hp, hm, Function.comp]
      · simp [parseLine, parseOrigin, hp, hm, Function.comp]

/-- Witness for C8 at a concrete contract-satisfying engine hunk. -/
theorem C8_parse_counts_witness :
    (parseHunk wEngineHunk).old_lines = (parseHunk wEngineHunk).lines.countP
      (fun l => l.origin == .Context || l.origin == .Deletion) ∧
    (parseHunk wEngineHunk).new_lines = (parseHunk wEngineHunk).lines.countP
      (fun l => l.origin == .Context || l.origin == .Addition) :=
  C8_parse_counts wEngineHunk (by constructor <;> rfl)

theorem runEnd_concat (f : DiffLine → Option Nat) (init : Nat)
    (L : List DiffLine) (x : DiffLine) :
    runEnd f init (L ++ [x]) = (f x).getD (runEnd f init L) := by
  unfold runEnd
  rw [List.foldl_append]
  rfl

/-- On a nonempty run whose values are all present, the accumulated end is
the value at the last element (any defaults). -/
theorem runEnd_ne_nil (f : DiffLine → Option Nat) (run : List DiffLine)
    (hne : run ≠ []) (init d : Nat) (dflt : DiffLine)
    (hall : ∀ x ∈ run, (f x).isSome = true) :
    runEnd f init run = (f (run.getLast?.getD dflt)).getD d := by
  rcases List.eq_nil_or_concat run with rfl | ⟨L, x, rfl⟩
  · exact absurd rfl hne
  · rw [List.concat_eq_append] at hall ⊢
    have hx : (f x).isSome = true := hall x (by simp)
    obtain ⟨v, hv⟩ := Option.isSome_iff_exists.mp hx
    rw [runEnd_concat, List.getLast?_concat]
    simp [hv]

/-- Same with the run's first element's value as starting point, covering the
empty-run case. -/
theorem runEnd_getD (f : DiffLine → Option Nat) (l : DiffLine)
    (run : List DiffLine) (hl : (f l).isSome = true)
    (hall : ∀ x ∈ run, (f x).isSome = true) (d1 d2 : Nat) :
    runEnd f ((f l).getD d1) run = (f (run.getLast?.getD l)).getD d2 := by
  rcases run with _ | ⟨a, t⟩
  · obtain ⟨v, hv⟩ := Option.isSome_iff_exists.mp hl
    simp [runEnd, hv]
  · exact runEnd_ne_nil f (a :: t) (by simp) _ d2 l hall

theorem classifierWF_sublist {l1 l2 : List DiffLine} (h : l1.Sublist l2)
    (hwf : classifierWF l2) : classifierWF l1 :=
  fun x hx => hwf x (h.subset hx)

/-- C4: on hunks whose Addition lines carry `new_lineno` and Deletion lines
carry `old_lineno`, the per-hunk loop of `line_changes` emits exactly the
claim's classification: one `Added` range per maximal addition run (first to
last `new_lineno`), one `Modified` range per deletion run directly followed
by additions (first deletion's `old_lineno` to last consumed addition's
`new_lineno`), one `Deleted` range per other deletion run (first to last
`old_lineno`), and nothing for context lines. -/
theorem C4_classifier (lines : List DiffLine) (hwf : classifierWF lines) :
    lineChangesHunk lines = specHunkChanges lines := by
  have main : ∀ (n : Nat) (lines : List DiffLine), lines.length ≤ n →
      classifierWF lines → lineChangesHunk lines = specHunkChanges lines := by
    intro n
    induction n with
    | zero =>
      intro lines hlen hwf
      have h0 : lines = [] := List.eq_nil_of_length_eq_zero (by omega)
      subst h0
      rw [lineChangesHunk, specHunkChanges]
    | succ n ih =>
      intro lines hlen hwf
      rcases lines with _ | ⟨l, rest⟩
      · rw [lineChangesHunk, specHunkChanges]
      · have hwfr : classifierWF rest :=
          fun x hx => hwf x (List.mem_cons_of_mem l hx)
        have hlenr : rest.length ≤ n := by
          simp only [List.length_cons] at hlen
          omega
        rw [lineChangesHunk, specHunkChanges]
        cases horig : l.origin with
        | Context => exact ih rest hlenr hwfr
        | Header => exact ih rest hlenr hwfr
        | Addition =>
          dsimp only
          have hl : l.new_lineno.isSome = true :=
            (hwf l (List.mem_cons_self l rest)).1 horig
          have hall : ∀ x ∈ rest.takeWhile isAddL,
              x.new_lineno.isSome = true := by
            intro x hx
            have hadd := List.mem_takeWhile_imp hx
            have hxorig : x.origin = .Addition := by
              simpa [isAddL] using hadd
            exact (hwfr x ((List.takeWhile_sublist isAddL).subset hx)).1 hxorig
          have hstart : l.new_lineno.getD 1 = l.new_lineno.getD 0 := by
            obtain ⟨v, hv⟩ := Option.isSome_iff_exists.mp hl
            rw [hv]
            rfl
          have hend := runEnd_getD (fun x => x.new_lineno) l
            (rest.takeWhile isAddL) hl hall 1 0
          have htail := ih (rest.dropWhile isAddL)
            (le_trans (List.dropWhile_sublist isAddL).length_le hlenr)
            (classifierWF_sublist (List.dropWhile_sublist isAddL) hwfr)
          rw [hend, hstart, htail]
        | Deletion =>
          dsimp only
          have hl : l.old_lineno.isSome = true :=
            (hwf l (List.mem_cons_self l rest)).2 horig
          have hallD : ∀ x ∈ rest.takeWhile isDelL,
              x.old_lineno.isSome = true := by
            intro x hx
            have hdel := List.mem_takeWhile_imp hx
            have hxorig : x.origin = .Deletion := by
              simpa [isDelL] using hdel
            exact (hwfr x ((List.takeWhile_sublist isDelL).subset hx)).2 hxorig
          have hstart : l.old_lineno.getD 1 = l.old_lineno.getD 0 := by
            obtain ⟨v, hv⟩ := Option.isSome_iff_exists.mp hl
            rw [hv]
            rfl
          have hendD := runEnd_getD (fun x => x.old_lineno) l
            (rest.takeWhile isDelL) hl hallD 1 0
          have hwf2 : classifierWF (rest.dropWhile isDelL) :=
            classifierWF_sublist (List.dropWhile_sublist isDelL) hwfr
          have hlen2 : (rest.dropWhile isDelL).length ≤ n :=
            le_trans (List.dropWhile_sublist isDelL).length_le hlenr
          rcases hr2 : rest.dropWhile isDelL with _ | ⟨a, t⟩
          · rw [hendD, hstart]
            simp [lineChangesHunk, specHunkChanges]
          · rw [hr2] at hwf2 hlen2
            cases hA : isAddL a with
            | false =>
              rw [hendD, hstart]
              have htail := ih (a :: t) hlen2 hwf2
              simp only [List.head?_cons, Option.map_some', Option.getD_some,
                hA, Bool.false_eq_true, if_false, htail]
            | true =>
              have haRun : (a :: t).takeWhile isAddL =
                  a :: t.takeWhile isAddL :=
                List.takeWhile_cons_of_pos hA
              have hallA : ∀ x ∈ (a :: t).takeWhile isAddL,
                  x.new_lineno.isSome = true := by
                intro x hx
                have hadd := List.mem_takeWhile_imp hx
                have hxorig : x.origin = .Addition := by
                  simpa [isAddL] using hadd
                have hx2 : x ∈ a :: t :=
                  (List.takeWhile_sublist isAddL).subset hx
                exact (hwf2 x hx2).1 hxorig
              have hmod := runEnd_ne_nil (fun x => x.new_lineno)
                ((a :: t).takeWhile isAddL) (by rw [haRun]; simp)
                (runEnd (fun x => x.old_lineno) (l.old_lineno.getD 1)
                  (rest.takeWhile isDelL)) 0 a hallA
              have htail := ih ((a :: t).dropWhile isAddL)
                (le_trans (List.dropWhile_sublist isAddL).length_le hlen2)
                (classifierWF_sublist (List.dropWhile_sublist isAddL) hwf2)
              simp only [List.head?_cons, Option.map_some', Option.getD_some,
                hA, if_true]
              rw [hmod, hstart, htail]
  exact main lines.length lines (le_refl _) hwf

/-- Witness for C4 at the delete-then-add hunk (a line replacement). -/
theorem C4_classifier_witness :
    lineChangesHunk wClassLines = specHunkChanges wClassLines :=
  C4_classifier wClassLines (by unfold classifierWF; decide)

end GitSage
